import Mathlib

/-!
Verification of the `liet` expense-tracking CLI against its natural-language
specification.  The Go sources are shallowly embedded below: pure date
arithmetic from Go's `time` package is modelled as integer day-counts in the
proleptic Gregorian calendar, the SQLite store as a list of rows, and each
period resolver / aggregation / rendering routine as a Lean function that
mirrors the corresponding Go function.
-/

namespace Liet

/-! ## Calendar model

Go's `time` package implements the proleptic Gregorian calendar.  We model a
calendar date by its integer day number (0 = January 1 of year 1, which was a
Monday), computed from a (year, month, day) triple.  `time.Date` normalizes
out-of-range months exactly like Euclidean division by 12, and out-of-range
days by adding the day offset to the first of the normalized month.
-/

/-- Gregorian leap-year test, as in Go `time.isLeap`:
`year%4 == 0 && (year%100 != 0 || year%400 == 0)`. -/
def isLeap (y : ℤ) : Bool :=
  y % 4 == 0 && (y % 100 != 0 || y % 400 == 0)

/-- Number of days in a month of a given year (Go `daysIn`). Months outside
1..12 are given length 0; all uses are guarded by validity. -/
def daysInMonth (y m : ℤ) : ℤ :=
  if m = 1 then 31
  else if m = 2 then (if isLeap y then 29 else 28)
  else if m = 3 then 31
  else if m = 4 then 30
  else if m = 5 then 31
  else if m = 6 then 30
  else if m = 7 then 31
  else if m = 8 then 31
  else if m = 9 then 30
  else if m = 10 then 31
  else if m = 11 then 30
  else if m = 12 then 31
  else 0

/-- Days elapsed in a year before the first day of month `m` (Go's
`daysBefore` table, with the leap-day correction applied for months
past February). -/
def daysBeforeMonth (leap : Bool) (m : ℤ) : ℤ :=
  (if m = 1 then 0
  else if m = 2 then 31
  else if m = 3 then 59
  else if m = 4 then 90
  else if m = 5 then 120
  else if m = 6 then 151
  else if m = 7 then 181
  else if m = 8 then 212
  else if m = 9 then 243
  else if m = 10 then 273
  else if m = 11 then 304
  else 334) + (if leap ∧ 3 ≤ m then 1 else 0)

/-- Days from January 1 of year 1 up to January 1 of year `y`
(standard Gregorian day count, `/` is Euclidean division). -/
def daysBeforeYear (y : ℤ) : ℤ :=
  365 * (y - 1) + (y - 1) / 4 - (y - 1) / 100 + (y - 1) / 400

/-- Day number of a calendar date `(y, m, d)` with `m` already in 1..12:
0 corresponds to 0001-01-01. -/
def dayNumber (y m d : ℤ) : ℤ :=
  daysBeforeYear y + daysBeforeMonth (isLeap y) m + d - 1

/-- Go `time.Date` month normalization: fold an arbitrary integer month into
1..12, carrying whole years (`m--; year += m/12; m %= 12; if m < 0 ...; m++`). -/
def normMonth (y m : ℤ) : ℤ × ℤ :=
  (y + (m - 1) / 12, (m - 1) % 12 + 1)

/-- Day number produced by Go `time.Date(y, m, d, ...)` for arbitrary integer
month and day arguments: normalize the month, then offset from the first of
that month by `d - 1` days. -/
def goDateDays (y m d : ℤ) : ℤ :=
  dayNumber (normMonth y m).1 (normMonth y m).2 1 + (d - 1)

/-- Go `Time.Weekday()` of a day number: 0 = Sunday .. 6 = Saturday.
Day number 0 (0001-01-01) is a Monday, hence the `+ 1`. -/
def goWeekday (n : ℤ) : ℤ :=
  (n + 1) % 7

/-- A (year, month, day) triple that denotes an actual calendar date. -/
def ValidDate (y m d : ℤ) : Prop :=
  1 ≤ m ∧ m ≤ 12 ∧ 1 ≤ d ∧ d ≤ daysInMonth y m

instance (y m d : ℤ) : Decidable (ValidDate y m d) := by
  unfold ValidDate; infer_instance

-- Sanity checks of the calendar model against well-known dates.
example : dayNumber 1970 1 1 = 719162 := by decide
example : goWeekday (dayNumber 1970 1 1) = 4 := by decide  -- Thursday
example : goWeekday (dayNumber 2023 1 1) = 0 := by decide  -- Sunday
example : goWeekday (dayNumber 2024 1 15) = 1 := by decide -- Monday
example : goWeekday (dayNumber 2000 3 1) = 3 := by decide  -- Wednesday
example : dayNumber 2024 3 1 = dayNumber 2024 2 29 + 1 := by decide
example : dayNumber 2023 3 1 = dayNumber 2023 2 28 + 1 := by decide

/-! ### Calendar lemmas -/

theorem normMonth_of_valid (y m : ℤ) (h1 : 1 ≤ m) (h2 : m ≤ 12) :
    normMonth y m = (y, m) := by
  unfold normMonth
  have hdiv : (m - 1) / 12 = 0 := by omega
  have hmod : (m - 1) % 12 = m - 1 := by omega
  rw [hdiv, hmod]
  simp

theorem goDateDays_of_valid (y m d : ℤ) (h1 : 1 ≤ m) (h2 : m ≤ 12) :
    goDateDays y m d = dayNumber y m d := by
  unfold goDateDays dayNumber
  rw [normMonth_of_valid y m h1 h2]
  ring

/-- Incrementing the year advances the day count by 365 plus the leap day. -/
theorem daysBeforeYear_succ (y : ℤ) :
    daysBeforeYear (y + 1) = daysBeforeYear y + 365 + (if isLeap y then 1 else 0) := by
  unfold daysBeforeYear isLeap
  have h4 : y % 4 = 0 ∨ y % 4 ≠ 0 := em _
  split
  next h =>
    simp only [Bool.and_eq_true, beq_iff_eq, Bool.or_eq_true, bne_iff_ne] at h
    omega
  next h =>
    simp only [Bool.and_eq_true, beq_iff_eq, Bool.or_eq_true, bne_iff_ne] at h
    push_neg at h
    omega

/-- Within a year, the days-before table advances by the month length. -/
theorem daysBeforeMonth_succ (l : Bool) (y m : ℤ) (h1 : 1 ≤ m) (h2 : m ≤ 11)
    (hl : l = isLeap y) :
    daysBeforeMonth l (m + 1) = daysBeforeMonth l m + daysInMonth y m := by
  subst hl
  unfold daysBeforeMonth daysInMonth
  interval_cases m <;> cases isLeap y <;> simp

/-- The first day of the (possibly overflowing) next month, as produced by
Go's normalization, is one past the last day of the current month. -/
theorem dayNumber_next_month (y m : ℤ) (h1 : 1 ≤ m) (h2 : m ≤ 12) :
    dayNumber (normMonth y (m + 1)).1 (normMonth y (m + 1)).2 1 =
      dayNumber y m 1 + daysInMonth y m := by
  rcases eq_or_lt_of_le h2 with h12 | h12
  · subst h12
    have : normMonth y (12 + 1) = (y + 1, 1) := by
      unfold normMonth; norm_num
    rw [this]
    show dayNumber (y + 1) 1 1 = dayNumber y 12 1 + daysInMonth y 12
    unfold dayNumber daysInMonth daysBeforeMonth
    rw [daysBeforeYear_succ]
    cases h : isLeap y <;> simp <;> ring
  · have hm11 : m ≤ 11 := by omega
    rw [normMonth_of_valid y (m + 1) (by omega) (by omega)]
    show dayNumber y (m + 1) 1 = dayNumber y m 1 + daysInMonth y m
    unfold dayNumber
    rw [daysBeforeMonth_succ (isLeap y) y m h1 hm11 rfl]
    ring

/-! ## Period resolvers

Each `...CostAggregation` function in the source computes a start and an end
date from `time.Now()` via `AddDate` and passes them to the aggregation.  We
embed the date computations; the current date is a triple `(y, m, d)`.
`now.AddDate(yy, mm, dd)` is Go `time.Date(y+yy, m+mm, d+dd, ...)`, i.e.
`goDateDays (y+yy) (m+mm) (d+dd)`, and `now.Weekday()` is
`goWeekday (dayNumber y m d)`. -/

/-- Start date of `thisWeekCostAggregation`:
`now.AddDate(0, 0, -int(now.Weekday()-1))`. -/
def thisWeekStartDate (y m d : ℤ) : ℤ :=
  goDateDays y m (d + -(goWeekday (goDateDays y m d) - 1))

/-- End date of `thisWeekCostAggregation`:
`now.AddDate(0, 0, daysOfWeek-int(now.Weekday()))` with `daysOfWeek = 7`. -/
def thisWeekEndDate (y m d : ℤ) : ℤ :=
  goDateDays y m (d + (7 - goWeekday (goDateDays y m d)))

/-- Start date of `lastWeekCostAggregation`:
`now.AddDate(0, 0, -int(now.Weekday()-1)-daysOfWeek)`. -/
def lastWeekStartDate (y m d : ℤ) : ℤ :=
  goDateDays y m (d + (-(goWeekday (goDateDays y m d) - 1) - 7))

/-- End date of `lastWeekCostAggregation`:
`now.AddDate(0, 0, -int(now.Weekday()))`. -/
def lastWeekEndDate (y m d : ℤ) : ℤ :=
  goDateDays y m (d + -(goWeekday (goDateDays y m d)))

/-- Start date of `thisMonthCostAggregation`:
`now.AddDate(0, 0, -now.Day()+1)`. -/
def thisMonthStartDate (y m d : ℤ) : ℤ :=
  goDateDays y m (d + (-d + 1))

/-- End date of `thisMonthCostAggregation`:
`now.AddDate(0, 1, daysOfMonth-now.Day())` with `daysOfMonth = 31`. -/
def thisMonthEndDate (y m d : ℤ) : ℤ :=
  goDateDays y (m + 1) (d + (31 - d))

/-- The weekday numbering used by the specification's description of the
`week` resolver: 1 = Monday .. 7 = Sunday. -/
def specWeekday (n : ℤ) : ℤ :=
  if goWeekday n = 0 then 7 else goWeekday n

/-- The `week` start as the specification words it:
`now - (weekday-1)` days with weekday 1 = Monday .. 7 = Sunday. -/
def specWeekStart (y m d : ℤ) : ℤ :=
  dayNumber y m d - (specWeekday (dayNumber y m d) - 1)

/-- The `month` end as the specification words it: the current month's first
day, plus one month, plus `31 - day-of-month` days. -/
def specMonthEnd (y m d : ℤ) : ℤ :=
  goDateDays y (m + 1) (1 + (31 - d))

/-- For a real calendar date, `AddDate(0, 0, k)` shifts the day number by `k`. -/
theorem goDateDays_shift (y m d k : ℤ) (h1 : 1 ≤ m) (h2 : m ≤ 12) :
    goDateDays y m (d + k) = dayNumber y m d + k := by
  rw [goDateDays_of_valid y m (d + k) h1 h2]
  unfold dayNumber
  ring

theorem goWeekday_nonneg (n : ℤ) : 0 ≤ goWeekday n :=
  Int.emod_nonneg _ (by norm_num)

theorem goWeekday_lt (n : ℤ) : goWeekday n < 7 :=
  Int.emod_lt_of_pos _ (by norm_num)

/-- C1 (amended): the `week` resolver uses Go's weekday numbering
0 = Sunday .. 6 = Saturday.  For Monday..Saturday (`w` in 1..6) it returns
`start = now - (w-1)` (the most recent Monday) and `end = now + (7 - w)`, as
the specification says; but on Sunday (`w = 0`) it returns
`start = now + 1` and `end = now + 7`, so the computed start lies strictly
after the current date. -/
theorem c1_week_resolver (y m d : ℤ) (hv : ValidDate y m d) :
    thisWeekStartDate y m d = dayNumber y m d - (goWeekday (dayNumber y m d) - 1) ∧
    thisWeekEndDate y m d = dayNumber y m d + (7 - goWeekday (dayNumber y m d)) ∧
    (goWeekday (dayNumber y m d) ≠ 0 → thisWeekStartDate y m d ≤ dayNumber y m d) ∧
    (goWeekday (dayNumber y m d) = 0 → thisWeekStartDate y m d = dayNumber y m d + 1) := by
  obtain ⟨h1, h2, -, -⟩ := hv
  have hs : thisWeekStartDate y m d =
      dayNumber y m d - (goWeekday (dayNumber y m d) - 1) := by
    unfold thisWeekStartDate
    rw [goDateDays_of_valid y m d h1 h2, goDateDays_shift y m d _ h1 h2]
    ring
  have he : thisWeekEndDate y m d =
      dayNumber y m d + (7 - goWeekday (dayNumber y m d)) := by
    unfold thisWeekEndDate
    rw [goDateDays_of_valid y m d h1 h2, goDateDays_shift y m d _ h1 h2]
  have hw0 : 0 ≤ goWeekday (dayNumber y m d) := goWeekday_nonneg _
  refine ⟨hs, he, ?_, ?_⟩ <;> intro h <;> omega

/-- C1 witness: concrete instantiation at 2024-01-15, a Monday. -/
theorem c1_week_resolver_witness :
    ValidDate 2024 1 15 ∧
    (thisWeekStartDate 2024 1 15 =
        dayNumber 2024 1 15 - (goWeekday (dayNumber 2024 1 15) - 1) ∧
      thisWeekEndDate 2024 1 15 =
        dayNumber 2024 1 15 + (7 - goWeekday (dayNumber 2024 1 15)) ∧
      (goWeekday (dayNumber 2024 1 15) ≠ 0 →
        thisWeekStartDate 2024 1 15 ≤ dayNumber 2024 1 15) ∧
      (goWeekday (dayNumber 2024 1 15) = 0 →
        thisWeekStartDate 2024 1 15 = dayNumber 2024 1 15 + 1)) :=
  ⟨by decide, c1_week_resolver 2024 1 15 (by decide)⟩

/-- C1 counterexample: on 2023-01-01, a Sunday, the computed week start is
the following day (strictly after the current date), and it differs from the
specification's `now - (weekday-1)` formula with weekday 1=Monday..7=Sunday. -/
theorem c1_week_resolver_counterexample :
    goWeekday (dayNumber 2023 1 1) = 0 ∧
    thisWeekStartDate 2023 1 1 = dayNumber 2023 1 1 + 1 ∧
    dayNumber 2023 1 1 < thisWeekStartDate 2023 1 1 ∧
    thisWeekStartDate 2023 1 1 ≠ specWeekStart 2023 1 1 := by
  decide

/-- C2 (amended): the `month` resolver returns `start` = the first day of the
current month, and `end` = the current date + 1 month + (31 - day-of-month)
days, which Go normalizes to the 31st of the next month, i.e. the first day
of the next month plus 30 days — a date always past the end of the current
month. -/
theorem c2_month_resolver (y m d : ℤ) (hv : ValidDate y m d) :
    thisMonthStartDate y m d = dayNumber y m 1 ∧
    thisMonthEndDate y m d = dayNumber y m 1 + daysInMonth y m + 30 ∧
    dayNumber y m (daysInMonth y m) < thisMonthEndDate y m d := by
  obtain ⟨h1, h2, -, -⟩ := hv
  have harg : d + (-d + 1) = 1 := by ring
  have hs : thisMonthStartDate y m d = dayNumber y m 1 := by
    unfold thisMonthStartDate
    rw [harg, goDateDays_of_valid y m 1 h1 h2]
  have harg2 : d + (31 - d) = 31 := by ring
  have he : thisMonthEndDate y m d = dayNumber y m 1 + daysInMonth y m + 30 := by
    unfold thisMonthEndDate
    rw [harg2]
    unfold goDateDays
    rw [dayNumber_next_month y m h1 h2]
    ring
  have hlast : dayNumber y m (daysInMonth y m) = dayNumber y m 1 + daysInMonth y m - 1 := by
    unfold dayNumber; ring
  exact ⟨hs, he, by omega⟩

/-- C2 witness: concrete instantiation at 2024-01-15. -/
theorem c2_month_resolver_witness :
    ValidDate 2024 1 15 ∧
    (thisMonthStartDate 2024 1 15 = dayNumber 2024 1 1 ∧
      thisMonthEndDate 2024 1 15 = dayNumber 2024 1 1 + daysInMonth 2024 1 + 30 ∧
      dayNumber 2024 1 (daysInMonth 2024 1) < thisMonthEndDate 2024 1 15) :=
  ⟨by decide, c2_month_resolver 2024 1 15 (by decide)⟩

/-- C2 counterexample: on 2024-01-15 the code's `month` end date is
2024-03-02 (the normalized February 31), not the claim's "first day of the
month + 1 month + (31 - day) days", which would be 2024-02-17. -/
theorem c2_month_resolver_counterexample :
    thisMonthEndDate 2024 1 15 = dayNumber 2024 3 2 ∧
    specMonthEnd 2024 1 15 = dayNumber 2024 2 17 ∧
    thisMonthEndDate 2024 1 15 ≠ specMonthEnd 2024 1 15 := by
  decide

/-- C3: for every current date, the `week` and `lastweek` windows, read with
both ends inclusive, each span exactly 7 calendar days, do not overlap, and
are contiguous: the day after `lastweek`'s end is `week`'s start. -/
theorem c3_week_windows (y m d : ℤ) (hv : ValidDate y m d) :
    thisWeekEndDate y m d - thisWeekStartDate y m d + 1 = 7 ∧
    lastWeekEndDate y m d - lastWeekStartDate y m d + 1 = 7 ∧
    lastWeekEndDate y m d + 1 = thisWeekStartDate y m d ∧
    lastWeekEndDate y m d < thisWeekStartDate y m d := by
  obtain ⟨h1, h2, -, -⟩ := hv
  unfold thisWeekStartDate thisWeekEndDate lastWeekStartDate lastWeekEndDate
  rw [goDateDays_shift y m d _ h1 h2, goDateDays_shift y m d _ h1 h2,
    goDateDays_shift y m d _ h1 h2, goDateDays_shift y m d _ h1 h2]
  omega

/-- C3 witness: concrete instantiation at 2023-01-01, a Sunday (the edge
weekday). -/
theorem c3_week_windows_witness :
    ValidDate 2023 1 1 ∧
    (thisWeekEndDate 2023 1 1 - thisWeekStartDate 2023 1 1 + 1 = 7 ∧
      lastWeekEndDate 2023 1 1 - lastWeekStartDate 2023 1 1 + 1 = 7 ∧
      lastWeekEndDate 2023 1 1 + 1 = thisWeekStartDate 2023 1 1 ∧
      lastWeekEndDate 2023 1 1 < thisWeekStartDate 2023 1 1) :=
  ⟨by decide, c3_week_windows 2023 1 1 (by decide)⟩

/-! ## The record store and the aggregation engine

The SQLite `transactions` table is modelled as a list of rows.  `cost REAL`
is modelled as a rational number, `category TEXT` (nullable) as
`Option String`, and `date TEXT` generically: the program stores ISO
`YYYY-MM-DD` strings, on which SQLite's `BETWEEN`/`ORDER BY` comparisons
coincide with the calendar order, so the date column is parametrized by any
linearly ordered type (`String` for the import path, day numbers `ℤ` for the
aggregation claims). -/

/-- A row of the `transactions` table created by `dbInit`. -/
structure Transaction (δ : Type) where
  cost : ℚ
  category : Option String
  comment : String
  date : δ
deriving DecidableEq

/-- One output row of the group-by-category sum query (`transactionSummary`
in the source). -/
structure transactionSummary where
  category : Option String
  totalCost : ℚ
deriving DecidableEq

/-- SQLite `ORDER BY category` ascending under the default BINARY collation:
NULL sorts before any text, text compares bytewise ascending. -/
def catLE (a b : Option String) : Prop :=
  match a, b with
  | none, _ => True
  | some _, none => False
  | some x, some y => x ≤ y

instance : DecidableRel catLE := fun a b => by
  cases a <;> cases b <;> unfold catLE <;> infer_instance

instance : IsTotal (Option String) catLE where
  total a b := by
    cases a <;> cases b <;> unfold catLE <;> simp
    exact le_total _ _

instance : IsTrans (Option String) catLE where
  trans a b c := by
    cases a <;> cases b <;> cases c <;> unfold catLE <;> simp
    exact le_trans

/-- Total of the costs of a list of rows (SQLite `SUM(cost)`). -/
def sumCosts {δ : Type} (rows : List (Transaction δ)) : ℚ :=
  (rows.map (·.cost)).sum

/-- The aggregation engine `costAggregration` (sic): a single query
`SELECT category, SUM(cost) FROM transactions WHERE date BETWEEN ? AND ?
GROUP BY category ORDER BY category`.  `BETWEEN` is inclusive on both
bounds; `GROUP BY` merges all NULL categories into one group; the rows come
back ordered by category ascending with NULL first. -/
def costAggregration {δ : Type} [LinearOrder δ] (db : List (Transaction δ))
    (startDate endDate : δ) : List transactionSummary :=
  let rows := db.filter (fun t => decide (startDate ≤ t.date ∧ t.date ≤ endDate))
  ((rows.map (·.category)).dedup.insertionSort catLE).map
    (fun c => ⟨c, sumCosts (rows.filter (fun t => decide (t.category = c)))⟩)

/-- Total reported for a given category by an aggregation result (0 when the
category has no row). -/
def totalFor (c : Option String) (agg : List transactionSummary) : ℚ :=
  ((agg.filter (fun s => decide (s.category = c))).map (·.totalCost)).sum

/-- Filtering a key-indexed map of summaries for one key: with distinct keys
the result is the single entry for that key, or nothing. -/
theorem filter_map_summaries (g : Option String → ℚ) (keys : List (Option String))
    (hnd : keys.Nodup) (c : Option String) :
    ((keys.map (fun k => transactionSummary.mk k (g k))).filter
        (fun s => decide (s.category = c))) =
      if c ∈ keys then [⟨c, g c⟩] else [] := by
  induction keys with
  | nil => simp
  | cons k ks ih =>
    have hk : k ∉ ks := (List.nodup_cons.mp hnd).1
    have hnd' : ks.Nodup := (List.nodup_cons.mp hnd).2
    by_cases hkc : k = c
    · subst hkc
      have : ((ks.map (fun k => transactionSummary.mk k (g k))).filter
          (fun s => decide (s.category = k))) = [] := by
        rw [ih hnd', if_neg hk]
      simp [List.filter_cons, this]
    · simp only [List.map_cons, List.filter_cons, decide_eq_true_eq]
      rw [if_neg (by simpa using hkc), ih hnd']
      by_cases hc : c ∈ ks
      · rw [if_pos hc, if_pos (by simp [hc])]
      · rw [if_neg hc, if_neg ?_]
        intro hmem
        rcases List.mem_cons.mp hmem with h | h
        · exact hkc h.symm
        · exact hc h

/-- A duplicate-free list of optional values satisfies an is-absent test at
most once. -/
theorem countP_isNone_le_one_of_nodup {α : Type} {l : List (Option α)}
    {p : Option α → Bool} (h : l.Nodup) (hpeq : ∀ x, p x = x.isNone) :
    l.countP p ≤ 1 := by
  induction l with
  | nil => simp
  | cons a l ih =>
    obtain ⟨hna, hnd⟩ := List.nodup_cons.mp h
    rw [List.countP_cons]
    cases a with
    | none =>
      have h0 : l.countP p = 0 := by
        rw [List.countP_eq_zero]
        intro x hx
        cases x with
        | none => exact absurd hx hna
        | some v => rw [hpeq]; simp
      rw [h0, hpeq]
      simp
    | some v =>
      have hpa : p (some v) = false := by rw [hpeq]; rfl
      rw [hpa]
      simpa using ih hnd

/-- C4: for every store state and every (start, end) pair, the aggregation's
single group-by-category query (i) counts a row into its category's total
exactly when `start ≤ date` and `date ≤ end` (BETWEEN inclusive on both
bounds), (ii) produces an output category exactly for the categories of the
rows in range — in particular all absent-category rows are grouped together
into at most one entry whose category is absent, and (iii) returns the rows
ordered ascending by category (NULL first), the store order, without
resorting. -/
theorem c4_aggregation (db : List (Transaction ℤ)) (s e : ℤ) :
    (∀ c : Option String,
      totalFor c (costAggregration db s e) =
        sumCosts (db.filter
          (fun t => decide ((s ≤ t.date ∧ t.date ≤ e) ∧ t.category = c)))) ∧
    (∀ c : Option String,
      c ∈ (costAggregration db s e).map (fun x => x.category) ↔
        ∃ t ∈ db, (s ≤ t.date ∧ t.date ≤ e) ∧ t.category = c) ∧
    (costAggregration db s e).countP (fun x => x.category.isNone) ≤ 1 ∧
    List.Pairwise (fun x y => catLE x.category y.category) (costAggregration db s e) := by
  set p : Transaction ℤ → Bool := fun t => decide (s ≤ t.date ∧ t.date ≤ e) with hp
  set rows : List (Transaction ℤ) := db.filter p with hrows
  set g : Option String → ℚ :=
    fun c => sumCosts (rows.filter (fun t => decide (t.category = c))) with hg
  set keys : List (Option String) :=
    (rows.map (fun t => t.category)).dedup.insertionSort catLE with hkeys
  have hagg : costAggregration db s e = keys.map (fun k => transactionSummary.mk k (g k)) := rfl
  have hperm : keys.Perm (rows.map (fun t => t.category)).dedup :=
    List.perm_insertionSort _ _
  have hnd : keys.Nodup := hperm.nodup_iff.mpr (List.nodup_dedup _)
  have hmemkeys : ∀ c, c ∈ keys ↔ c ∈ rows.map (fun t => t.category) :=
    fun c => hperm.mem_iff.trans List.mem_dedup
  have hfilter2 : ∀ c : Option String,
      db.filter (fun t => decide ((s ≤ t.date ∧ t.date ≤ e) ∧ t.category = c)) =
        rows.filter (fun t => decide (t.category = c)) := by
    intro c
    rw [hrows, List.filter_filter]
    apply List.filter_congr
    intro x _
    simp only [hp]
    rw [Bool.decide_and, Bool.and_comm]
  refine ⟨?_, ?_, ?_, ?_⟩
  · intro c
    rw [hagg]
    unfold totalFor
    rw [filter_map_summaries g keys hnd c, hfilter2 c]
    by_cases hc : c ∈ keys
    · rw [if_pos hc]; simp [hg]
    · rw [if_neg hc]
      have hnone : rows.filter (fun t => decide (t.category = c)) = [] := by
        rw [List.filter_eq_nil_iff]
        intro t ht
        simp only [decide_eq_true_eq]
        intro hcat
        exact hc ((hmemkeys c).mpr (List.mem_map.mpr ⟨t, ht, hcat⟩))
      rw [hnone]
      simp [sumCosts]
  · intro c
    rw [hagg, List.map_map]
    have hmap : ((fun x : transactionSummary => x.category) ∘
        fun k => transactionSummary.mk k (g k)) = id := rfl
    rw [hmap, List.map_id]
    rw [hmemkeys c, List.mem_map]
    constructor
    · rintro ⟨t, ht, hcat⟩
      rw [hrows, List.mem_filter] at ht
      exact ⟨t, ht.1, by simpa [hp] using ht.2, hcat⟩
    · rintro ⟨t, htdb, hrange, hcat⟩
      exact ⟨t, by rw [hrows, List.mem_filter]; exact ⟨htdb, by simpa [hp] using hrange⟩, hcat⟩
  · rw [hagg, List.countP_map]
    exact countP_isNone_le_one_of_nodup hnd (fun x => rfl)
  · rw [hagg]
    exact List.Pairwise.map _ (fun a b h => h) (List.sorted_insertionSort catLE _)

/-! ## The single-period report renderer's sort -/

/-- Go's conversion `int(x)` applied to a float difference: truncation
toward zero. -/
def truncQ (q : ℚ) : ℤ :=
  if 0 ≤ q then ⌊q⌋ else ⌈q⌉

/-- The comparator passed to the sort in `costAggregrationTable`:
`func(a, b transactionSummary) int { return int(a.totalCost - b.totalCost) }`. -/
def cmpSummary (a b : transactionSummary) : ℤ :=
  truncQ (a.totalCost - b.totalCost)

/-- "`a` sorts no later than `b`" under the source's comparator. -/
def summaryLE (a b : transactionSummary) : Prop :=
  cmpSummary a b ≤ 0

instance : DecidableRel summaryLE := fun a b => by
  unfold summaryLE; infer_instance

/-- Modelled from the spec: the sorting routine `slices.SortFunc` invoked by
`costAggregrationTable` is Go standard-library code, not part of this
repository.  The specification describes the render sort as a stable
ascending sort by the comparator `int(a.totalCost - b.totalCost)`; it is
modelled as stable insertion sort with exactly that comparator. -/
def sortSummaries (l : List transactionSummary) : List transactionSummary :=
  List.insertionSort summaryLE l

/-- Category rendering in `costAggregrationTable` and
`monthlyCostAggregation`: `category := "N/A"; if s.category.Valid
{ category = s.category.String }`. -/
def renderCategory (c : Option String) : String :=
  match c with
  | none => "N/A"
  | some s => s

/-- The data rows printed by `costAggregrationTable`, in print order: the
summaries sorted by the truncated-difference comparator, each rendered as a
(category text, totalCost) pair. -/
def costAggregrationTableRows (summaries : List transactionSummary) :
    List (String × ℚ) :=
  (sortSummaries summaries).map (fun s => (renderCategory s.category, s.totalCost))

theorem truncQ_neg (q : ℚ) : truncQ (-q) = -truncQ q := by
  unfold truncQ
  rcases lt_trichotomy q 0 with h | h | h
  · rw [if_pos (by linarith), if_neg (by linarith), Int.floor_neg]
  · subst h; norm_num
  · rw [if_neg (by linarith), if_pos (by linarith), Int.ceil_neg]

theorem truncQ_eq_zero {q : ℚ} (h1 : -1 < q) (h2 : q < 1) : truncQ q = 0 := by
  unfold truncQ
  rcases le_or_lt 0 q with h | h
  · rw [if_pos h, Int.floor_eq_zero_iff]
    exact ⟨h, h2⟩
  · rw [if_neg (by linarith), Int.ceil_eq_zero_iff]
    exact ⟨h1, le_of_lt h⟩

theorem summaryLE_total (a b : transactionSummary) (h : ¬ summaryLE a b) :
    summaryLE b a := by
  unfold summaryLE cmpSummary at h ⊢
  have : b.totalCost - a.totalCost = -(a.totalCost - b.totalCost) := by ring
  rw [this, truncQ_neg]
  omega

/-! ### Stability and sortedness of the modelled sort -/

/-- Inserting preserves adjacent-sortedness for any total relation, even a
non-transitive one such as the truncated-difference comparator's. -/
theorem chain'_orderedInsert {α : Type} (r : α → α → Prop) [DecidableRel r]
    (htot : ∀ a b, ¬ r a b → r b a) (a : α) (l : List α) (h : List.Chain' r l) :
    List.Chain' r (List.orderedInsert r a l) := by
  induction l with
  | nil => simp
  | cons b l ih =>
    rw [List.orderedInsert]
    by_cases hab : r a b
    · rw [if_pos hab]
      exact List.chain'_cons.mpr ⟨hab, h⟩
    · rw [if_neg hab]
      have hba := htot a b hab
      have hrec := ih h.tail
      cases l with
      | nil =>
        simp only [List.orderedInsert]
        exact List.chain'_cons.mpr ⟨hba, List.chain'_singleton a⟩
      | cons c l' =>
        rw [List.orderedInsert] at hrec ⊢
        by_cases hac : r a c
        · rw [if_pos hac] at hrec ⊢
          exact List.chain'_cons.mpr ⟨hba, hrec⟩
        · rw [if_neg hac] at hrec ⊢
          exact List.chain'_cons.mpr ⟨(List.chain'_cons.mp h).1, hrec⟩

/-- The insertion sort is adjacent-sorted for any total relation. -/
theorem chain'_insertionSort {α : Type} (r : α → α → Prop) [DecidableRel r]
    (htot : ∀ a b, ¬ r a b → r b a) (l : List α) :
    List.Chain' r (List.insertionSort r l) := by
  induction l with
  | nil => simp
  | cons a l ih =>
    rw [List.insertionSort]
    exact chain'_orderedInsert r htot a _ ih

/-- Insertion never moves an existing element: any marked occurrence keeps a
split around it. -/
theorem orderedInsert_mem_split {α : Type} (r : α → α → Prop) [DecidableRel r]
    (x : α) (u : List α) (b : α) (v : List α) :
    ∃ w1 w2, List.orderedInsert r x (u ++ b :: v) = w1 ++ b :: w2 := by
  induction u with
  | nil =>
    by_cases hxb : r x b
    · exact ⟨[x], v, by simp [List.orderedInsert, hxb]⟩
    · exact ⟨[], List.orderedInsert r x v, by simp [List.orderedInsert, hxb]⟩
  | cons z u' ih =>
    by_cases hxz : r x z
    · exact ⟨x :: z :: u', v, by simp [List.orderedInsert, hxz]⟩
    · obtain ⟨w1, w2, heq⟩ := ih
      refine ⟨z :: w1, w2, ?_⟩
      have hoi : List.orderedInsert r x (z :: (u' ++ b :: v)) =
          if r x z then x :: (z :: (u' ++ b :: v))
          else z :: List.orderedInsert r x (u' ++ b :: v) := rfl
      rw [List.cons_append, hoi, if_neg hxz, heq, List.cons_append]

/-- When the new element sorts no later than a marked element, insertion
places it before that element. -/
theorem orderedInsert_before {α : Type} (r : α → α → Prop) [DecidableRel r]
    (x b : α) (hxb : r x b) (m1 m2 : List α) :
    ∃ p1 p2, List.orderedInsert r x (m1 ++ b :: m2) = p1 ++ x :: (p2 ++ b :: m2) := by
  induction m1 with
  | nil => exact ⟨[], [], by simp [List.orderedInsert, hxb]⟩
  | cons z m1' ih =>
    by_cases hxz : r x z
    · exact ⟨[], z :: m1', by simp [List.orderedInsert, hxz]⟩
    · obtain ⟨p1, p2, heq⟩ := ih
      refine ⟨z :: p1, p2, ?_⟩
      have hoi : List.orderedInsert r x (z :: (m1' ++ b :: m2)) =
          if r x z then x :: (z :: (m1' ++ b :: m2))
          else z :: List.orderedInsert r x (m1' ++ b :: m2) := rfl
      rw [List.cons_append, hoi, if_neg hxz, heq, List.cons_append]

/-- Insertion preserves the relative order of two marked occurrences. -/
theorem orderedInsert_decomp {α : Type} (r : α → α → Prop) [DecidableRel r]
    (x : α) (m1 : List α) (a : α) (m2 : List α) (b : α) (m3 : List α) :
    ∃ p1 p2 p3,
      List.orderedInsert r x (m1 ++ a :: (m2 ++ b :: m3)) =
        p1 ++ a :: (p2 ++ b :: p3) := by
  induction m1 with
  | nil =>
    by_cases hxa : r x a
    · exact ⟨[x], m2, m3, by simp [List.orderedInsert, hxa]⟩
    · obtain ⟨w1, w2, heq⟩ := orderedInsert_mem_split r x m2 b m3
      refine ⟨[], w1, w2, ?_⟩
      have hoi : List.orderedInsert r x (a :: (m2 ++ b :: m3)) =
          if r x a then x :: (a :: (m2 ++ b :: m3))
          else a :: List.orderedInsert r x (m2 ++ b :: m3) := rfl
      rw [List.nil_append, hoi, if_neg hxa, heq, List.nil_append]
  | cons z m1' ih =>
    by_cases hxz : r x z
    · exact ⟨x :: z :: m1', m2, m3, by simp [List.orderedInsert, hxz]⟩
    · obtain ⟨p1, p2, p3, heq⟩ := ih
      refine ⟨z :: p1, p2, p3, ?_⟩
      have hoi : List.orderedInsert r x (z :: (m1' ++ a :: (m2 ++ b :: m3))) =
          if r x z then x :: (z :: (m1' ++ a :: (m2 ++ b :: m3)))
          else z :: List.orderedInsert r x (m1' ++ a :: (m2 ++ b :: m3)) := rfl
      rw [List.cons_append, hoi, if_neg hxz, heq, List.cons_append]

/-- Stability: two elements of the input related by the sort relation keep
their relative order in the sorted output. -/
theorem insertionSort_stable {α : Type} (r : α → α → Prop) [DecidableRel r]
    (l l1 : List α) (a : α) (l2 : List α) (b : α) (l3 : List α)
    (hdec : l = l1 ++ a :: (l2 ++ b :: l3)) (hab : r a b) :
    ∃ p1 p2 p3, List.insertionSort r l = p1 ++ a :: (p2 ++ b :: p3) := by
  induction l1 generalizing l with
  | nil =>
    subst hdec
    rw [List.nil_append]
    have hsort : List.insertionSort r (a :: (l2 ++ b :: l3)) =
        List.orderedInsert r a (List.insertionSort r (l2 ++ b :: l3)) := rfl
    rw [hsort]
    have hbmem : b ∈ List.insertionSort r (l2 ++ b :: l3) :=
      (List.perm_insertionSort r _).mem_iff.mpr (by simp)
    obtain ⟨u, v, huv⟩ := List.append_of_mem hbmem
    rw [huv]
    obtain ⟨p1, p2, heq⟩ := orderedInsert_before r a b hab u v
    exact ⟨p1, p2, v, heq⟩
  | cons z l1' ih =>
    subst hdec
    rw [List.cons_append]
    have hsort : List.insertionSort r (z :: (l1' ++ a :: (l2 ++ b :: l3))) =
        List.orderedInsert r z (List.insertionSort r (l1' ++ a :: (l2 ++ b :: l3))) := rfl
    rw [hsort]
    obtain ⟨p1, p2, p3, heq⟩ := ih (l1' ++ a :: (l2 ++ b :: l3)) rfl
    rw [heq]
    exact orderedInsert_decomp r z p1 a p2 b p3

/-- C5: for every aggregation result, the single-period table renderer
prints the rows in the order of a stable sort whose comparator is the
truncated-to-integer difference of the totals: the printed order is a
permutation of the aggregation result, every adjacent pair is ascending per
the comparator, two totals differing by less than 1 compare as equal, and
any two summaries related by the comparator — in particular any two whose
totals differ by less than 1 — keep their prior relative order.  The sorting
algorithm is modelled from the spec (stable sort); the comparator is the
source's. -/
theorem c5_render_sort (l l1 : List transactionSummary) (a : transactionSummary)
    (l2 : List transactionSummary) (b : transactionSummary)
    (l3 : List transactionSummary) :
    costAggregrationTableRows l =
      (sortSummaries l).map (fun s => (renderCategory s.category, s.totalCost)) ∧
    (sortSummaries l).Perm l ∧
    List.Chain' summaryLE (sortSummaries l) ∧
    (|a.totalCost - b.totalCost| < 1 → cmpSummary a b = 0 ∧ cmpSummary b a = 0) ∧
    (l = l1 ++ a :: (l2 ++ b :: l3) → cmpSummary a b ≤ 0 →
      ∃ p1 p2 p3, sortSummaries l = p1 ++ a :: (p2 ++ b :: p3)) := by
  refine ⟨rfl, List.perm_insertionSort _ _,
    chain'_insertionSort summaryLE summaryLE_total l, ?_, ?_⟩
  · intro h
    rw [abs_lt] at h
    constructor
    · exact truncQ_eq_zero h.1 h.2
    · unfold cmpSummary
      have hnegd : b.totalCost - a.totalCost = -(a.totalCost - b.totalCost) := by ring
      rw [hnegd, truncQ_neg, truncQ_eq_zero h.1 h.2]
      norm_num
  · intro hdec hle
    exact insertionSort_stable summaryLE l l1 a l2 b l3 hdec hle

/-- C5 witness: two rows whose totals 2.5 and 2.4 differ by less than 1
compare as equal under the truncating comparator and keep their input
order in the sorted output. -/
theorem c5_render_sort_witness :
    (([⟨some "groceries", (5 : ℚ)/2⟩, ⟨some "dog", (12 : ℚ)/5⟩] :
        List transactionSummary) =
      [] ++ (⟨some "groceries", (5 : ℚ)/2⟩ : transactionSummary) ::
        ([] ++ (⟨some "dog", (12 : ℚ)/5⟩ : transactionSummary) :: [])) ∧
    cmpSummary ⟨some "groceries", (5 : ℚ)/2⟩ ⟨some "dog", (12 : ℚ)/5⟩ ≤ 0 ∧
    (∃ p1 p2 p3,
      sortSummaries [⟨some "groceries", (5 : ℚ)/2⟩, ⟨some "dog", (12 : ℚ)/5⟩] =
        p1 ++ (⟨some "groceries", (5 : ℚ)/2⟩ : transactionSummary) ::
          (p2 ++ (⟨some "dog", (12 : ℚ)/5⟩ : transactionSummary) :: p3)) := by
  have h := c5_render_sort
    [⟨some "groceries", (5 : ℚ)/2⟩, ⟨some "dog", (12 : ℚ)/5⟩]
    [] ⟨some "groceries", (5 : ℚ)/2⟩ [] ⟨some "dog", (12 : ℚ)/5⟩ []
  have hle : cmpSummary (⟨some "groceries", (5 : ℚ)/2⟩ : transactionSummary)
      ⟨some "dog", (12 : ℚ)/5⟩ ≤ 0 := by
    have := (h.2.2.2.1 (by rw [abs_lt]; constructor <;> norm_num)).1
    omega
  exact ⟨rfl, hle, h.2.2.2.2 rfl hle⟩

/-! ## The monthly pivot report (`monthlyCostAggregation`) -/

/-- Month names as Go `time.Month.String()` yields them for 1..12. -/
def monthName (m : ℤ) : String :=
  if m = 1 then "January"
  else if m = 2 then "February"
  else if m = 3 then "March"
  else if m = 4 then "April"
  else if m = 5 then "May"
  else if m = 6 then "June"
  else if m = 7 then "July"
  else if m = 8 then "August"
  else if m = 9 then "September"
  else if m = 10 then "October"
  else if m = 11 then "November"
  else if m = 12 then "December"
  else ""

/-- The months iterated by `monthlyCostAggregation`:
`for m := time.January; m <= now.Month(); m++`. -/
def monthRange (M : ℤ) : List ℤ :=
  (List.range M.toNat).map (fun i : ℕ => (i : ℤ) + 1)

/-- Window start for month `m`: `time.Date(now.Year(), m, 1, ...)`. -/
def monthWindowStart (y m : ℤ) : ℤ :=
  goDateDays y m 1

/-- Window end for month `m`:
`time.Date(now.Year(), m+1, 1, ...).AddDate(0, 0, -1)`. -/
def monthWindowEnd (y m : ℤ) : ℤ :=
  goDateDays y (m + 1) 1 + -1

/-- The per-month aggregations collected by the pivot loop: one
`costAggregration` call per month from January through month `M`. -/
def monthlyExpenses (db : List (Transaction ℤ)) (y M : ℤ) :
    List (ℤ × List transactionSummary) :=
  (monthRange M).map
    (fun m => (m, costAggregration db (monthWindowStart y m) (monthWindowEnd y m)))

/-- The pivot's header: the category column plus one column per iterated
month, labelled `m.String()`. -/
def pivotColumns (M : ℤ) : List String :=
  "Category" :: (monthRange M).map monthName

/-- The cell loop's match test:
`s.category.Valid && s.category.String == category ||
 !s.category.Valid && category == "N/A"`. -/
def pivotCellMatch (category : String) (s : transactionSummary) : Bool :=
  (s.category.isSome && decide (s.category.getD "" = category)) ||
  (!s.category.isSome && decide (category = "N/A"))

/-- One (category, month) cell of the pivot: the loop
`totalCost += s.totalCost` over that month's aggregation, guarded by the
match test. -/
def pivotCell (db : List (Transaction ℤ)) (y m : ℤ) (category : String) : ℚ :=
  (costAggregration db (monthWindowStart y m) (monthWindowEnd y m)).foldl
    (fun acc s => if pivotCellMatch category s then acc + s.totalCost else acc) 0

/-- The total an aggregation result reports for one rendered category name
(absent rendered as "N/A"). -/
def totalForRendered (category : String) (agg : List transactionSummary) : ℚ :=
  ((agg.filter (fun s => decide (renderCategory s.category = category))).map
    (fun s => s.totalCost)).sum

theorem mem_monthRange {M m : ℤ} (hM : 0 ≤ M) :
    m ∈ monthRange M ↔ 1 ≤ m ∧ m ≤ M := by
  unfold monthRange
  simp only [List.mem_map, List.mem_range]
  constructor
  · rintro ⟨i, hi, rfl⟩
    omega
  · rintro ⟨h1, h2⟩
    exact ⟨(m - 1).toNat, by omega, by omega⟩

theorem pivotCellMatch_eq_render (category : String) (s : transactionSummary) :
    pivotCellMatch category s = decide (renderCategory s.category = category) := by
  unfold pivotCellMatch renderCategory
  cases s.category with
  | none =>
    simp only [Option.isSome_none]
    cases h : decide (category = "N/A") with
    | false =>
      simp only [Bool.not_false, Bool.and_true, Bool.false_and, Bool.or_false]
      simp at h ⊢
      exact fun hh => h hh.symm
    | true =>
      simp only [Bool.not_false, Bool.and_true, Bool.false_and]
      simp at h ⊢
      exact h.symm
  | some v =>
    simp

theorem foldl_cell_eq_sum (category : String) (l : List transactionSummary) :
    ∀ init : ℚ,
      l.foldl (fun acc s => if pivotCellMatch category s then acc + s.totalCost else acc)
          init =
        init + ((l.filter (pivotCellMatch category)).map (fun s => s.totalCost)).sum := by
  induction l with
  | nil => intro init; simp
  | cons s l ih =>
    intro init
    rw [List.foldl_cons, List.filter_cons]
    by_cases h : pivotCellMatch category s
    · rw [if_pos h, if_pos h, ih, List.map_cons, List.sum_cons]
      ring
    · rw [if_neg h, if_neg h, ih]

/-- C6: for every store state, year and current month `M` (January = 1), the
monthly pivot runs one aggregation per calendar month from January through
month `M`, prints exactly `M` value columns plus one category column, each
month's window runs from the first through the last day of that month, and
each (category, month) cell equals that month's aggregation total for the
category (absent categories rendered and matched as "N/A"). -/
theorem c6_monthly_pivot (db : List (Transaction ℤ)) (y M : ℤ) (category : String)
    (h1 : 1 ≤ M) (h2 : M ≤ 12) :
    (monthlyExpenses db y M).length = M.toNat ∧
    (pivotColumns M).length = M.toNat + 1 ∧
    (∀ m ∈ monthRange M,
      monthWindowStart y m = dayNumber y m 1 ∧
      monthWindowEnd y m = dayNumber y m (daysInMonth y m)) ∧
    (∀ m ∈ monthRange M,
      pivotCell db y m category =
        totalForRendered category
          (costAggregration db (dayNumber y m 1) (dayNumber y m (daysInMonth y m)))) := by
  have hwin : ∀ m ∈ monthRange M,
      monthWindowStart y m = dayNumber y m 1 ∧
      monthWindowEnd y m = dayNumber y m (daysInMonth y m) := by
    intro m hm
    rw [mem_monthRange (by omega)] at hm
    have hm1 : 1 ≤ m := hm.1
    have hm12 : m ≤ 12 := le_trans hm.2 h2
    constructor
    · exact goDateDays_of_valid y m 1 hm1 hm12
    · unfold monthWindowEnd goDateDays
      rw [dayNumber_next_month y m hm1 hm12]
      unfold dayNumber
      ring
  refine ⟨?_, ?_, hwin, ?_⟩
  · unfold monthlyExpenses monthRange
    simp
  · unfold pivotColumns monthRange
    simp
  · intro m hm
    obtain ⟨hs, he⟩ := hwin m hm
    unfold pivotCell
    rw [hs, he, foldl_cell_eq_sum]
    unfold totalForRendered
    rw [zero_add]
    congr 1
    apply congrArg
    apply List.filter_congr
    intro s _
    rw [pivotCellMatch_eq_render]

/-- C6 witness: a two-row store, year 2024, current month February. -/
theorem c6_monthly_pivot_witness :
    (1 : ℤ) ≤ 2 ∧ (2 : ℤ) ≤ 12 ∧
    ((monthlyExpenses
        [⟨10, some "food", "", dayNumber 2024 1 5⟩,
         ⟨7, none, "", dayNumber 2024 2 3⟩] 2024 2).length = (2 : ℤ).toNat ∧
      (pivotColumns 2).length = (2 : ℤ).toNat + 1 ∧
      (∀ m ∈ monthRange 2,
        monthWindowStart 2024 m = dayNumber 2024 m 1 ∧
        monthWindowEnd 2024 m = dayNumber 2024 m (daysInMonth 2024 m)) ∧
      (∀ m ∈ monthRange 2,
        pivotCell
            [⟨10, some "food", "", dayNumber 2024 1 5⟩,
             ⟨7, none, "", dayNumber 2024 2 3⟩] 2024 m "N/A" =
          totalForRendered "N/A"
            (costAggregration
              [⟨10, some "food", "", dayNumber 2024 1 5⟩,
               ⟨7, none, "", dayNumber 2024 2 3⟩]
              (dayNumber 2024 m 1) (dayNumber 2024 m (daysInMonth 2024 m))))) :=
  ⟨by norm_num, by norm_num,
    c6_monthly_pivot
      [⟨10, some "food", "", dayNumber 2024 1 5⟩,
       ⟨7, none, "", dayNumber 2024 2 3⟩] 2024 2 "N/A"
      (by norm_num) (by norm_num)⟩

/-! ## The stats dispatcher (`statsRunner`) -/

/-- Code points recognized as white space by Go's `unicode.IsSpace` (used by
`strings.TrimSpace`): ASCII spaces, NEL, NBSP and the Unicode space
separators. -/
def goIsSpace (c : Char) : Bool :=
  c.toNat ∈ [9, 10, 11, 12, 13, 32, 133, 160, 5760, 8192, 8193, 8194, 8195,
    8196, 8197, 8198, 8199, 8200, 8201, 8202, 8232, 8233, 8239, 8287, 12288]

/-- Go `strings.TrimSpace`: drop white space from both ends. -/
def goTrimSpace (s : String) : String :=
  ⟨((s.data.dropWhile goIsSpace).reverse.dropWhile goIsSpace).reverse⟩

/-- The keyword normalization in `statsRunner`:
`strings.TrimSpace(strings.ToLower(strings.ReplaceAll(strings.ReplaceAll(stats, "-", ""), " ", "")))`
— replacing by the empty string removes every occurrence.  `strings.ToLower`
applies `unicode.ToLower` rune by rune; that character mapping is
standard-library code carrying the full Unicode case table, so it is a
parameter of the embedding, and the theorems below hold for every mapping,
in particular Go's. -/
def normalizeStats (toLower : Char → Char) (stats : String) : String :=
  goTrimSpace
    ⟨((stats.data.filter (fun c => c != '-')).filter (fun c => c != ' ')).map toLower⟩

/-- What a `statsRunner` invocation does. -/
inductive StatsAction where
  | help
  | aggregation (cmd : String)
  | unknown (msg : String)
deriving DecidableEq

/-- The keys of the `statsMap` table in `statsRunner`. -/
def statsKeywords : List String :=
  ["alltime", "today", "week", "month", "lastweek", "lastmonth", "monthly"]

/-- The dispatcher `statsRunner`, parametrized by the lowercase character
mapping of `strings.ToLower` and by the outcome of the looked up stats
function (which touches the store): returns the action taken and the error
returned. -/
def statsRunner (toLower : Char → Char) (runStats : String → Option String)
    (stats : String) : StatsAction × Option String :=
  let s := normalizeStats toLower stats
  if s = "help" ∨ s = "-h" ∨ s = "--help" then (.help, none)
  else if s ∈ statsKeywords then (.aggregation s, runStats s)
  else (.unknown ("Unknown stats command: " ++ stats ++
    ", run with -w help to know valid values"), none)

/-- C7: for every lowercase character mapping (in particular Go's
`unicode.ToLower`), a stats keyword whose normalization (lowercase, hyphens
and spaces stripped) is none of the recognized keywords nor a help form
makes the dispatcher print a message naming the raw input and pointing at
the help keyword, perform no aggregation, and return no error. -/
theorem c7_unknown_keyword (toLower : Char → Char)
    (runStats : String → Option String) (stats : String)
    (h : normalizeStats toLower stats ∉
      statsKeywords ++ ["help", "-h", "--help"]) :
    statsRunner toLower runStats stats =
      (.unknown ("Unknown stats command: " ++ stats ++
        ", run with -w help to know valid values"), none) := by
  unfold statsRunner
  simp only [List.mem_append] at h
  push_neg at h
  obtain ⟨hkw, hhelp⟩ := h
  simp only [List.mem_cons, List.not_mem_nil] at hhelp
  push_neg at hhelp
  rw [if_neg (by tauto), if_neg hkw]

/-- C7 witness: the keyword "blah" (all ASCII, where every Unicode-correct
lowercase mapping agrees with `Char.toLower`) takes the unknown-command
path. -/
theorem c7_unknown_keyword_witness :
    normalizeStats Char.toLower "blah" ∉ statsKeywords ++ ["help", "-h", "--help"] ∧
    statsRunner Char.toLower (fun _ => none) "blah" =
      (.unknown ("Unknown stats command: " ++ "blah" ++
        ", run with -w help to know valid values"), none) :=
  ⟨by decide, c7_unknown_keyword Char.toLower (fun _ => none) "blah" (by decide)⟩

/-! ## Inserting rows and the CSV import -/

/-- `insertTransaction`: appends a row; the category is stored as SQL NULL
when `strings.TrimSpace(category)` is empty
(`sql.NullString{String: category, Valid: strings.TrimSpace(category) != ""}`). -/
def insertTransaction {δ : Type} (db : List (Transaction δ)) (cost : ℚ)
    (category comment : String) (date : δ) : List (Transaction δ) :=
  db ++ [{ cost := cost,
           category := if goTrimSpace category = "" then none else some category,
           comment := comment,
           date := date }]

/-- `strings.Split(line, ",")` on the character list (the separator is one
character; splitting the empty string yields one empty field). -/
def splitCommaChars : List Char → List (List Char)
  | [] => [[]]
  | c :: rest =>
    match splitCommaChars rest with
    | [] => [[c]]
    | g :: gs => if c = ',' then [] :: g :: gs else (c :: g) :: gs

/-- `strings.Split(line, ",")`. -/
def splitComma (s : String) : List String :=
  (splitCommaChars s.data).map (fun l => ⟨l⟩)

/-- The two `errUser`-wrapped failures of `dbImport`: a data line with fewer
than 5 comma-separated fields, or an unparseable cost field. -/
inductive ImportError where
  | invalidLine (lineNum : ℕ) (line : String)
  | invalidCost (lineNum : ℕ) (cost : String)
deriving DecidableEq

/-- The scan loop of `dbImport` after the header was skipped, parametrized
by the float parser (`strconv.ParseFloat`, standard-library code): on each
line, split on commas, reject fewer than 5 fields, parse field 1 as the
cost, and insert (cost, field 2, field 3, field 4); stop at the first
failure. -/
def importLoop (pf : String → Option ℚ) (lineNum : ℕ) :
    List String → List (Transaction String) →
      List (Transaction String) × Option ImportError
  | [], db => (db, none)
  | line :: rest, db =>
    let parts := splitComma line
    if parts.length < 5 then (db, some (.invalidLine (lineNum + 1) line))
    else
      match pf (parts.getD 1 "") with
      | none => (db, some (.invalidCost (lineNum + 1) (parts.getD 1 "")))
      | some cost =>
        importLoop pf (lineNum + 1) rest
          (insertTransaction db cost (parts.getD 2 "") (parts.getD 3 "") (parts.getD 4 ""))

/-- `dbImport`: the first scanned line is always skipped as the header; the
remaining lines are processed by the loop. -/
def dbImport (pf : String → Option ℚ) (lines : List String)
    (db : List (Transaction String)) :
    List (Transaction String) × Option ImportError :=
  match lines with
  | [] => (db, none)
  | _ :: rest => importLoop pf 0 rest db

/-- A data line `dbImport` rejects: fewer than 5 comma-separated fields, or
an unparseable cost field. -/
def malformedLine (pf : String → Option ℚ) (line : String) : Bool :=
  decide ((splitComma line).length < 5) || ((pf ((splitComma line).getD 1 "")).isNone)

/-- The row a well-formed data line inserts. -/
def lineInsert (pf : String → Option ℚ) (db : List (Transaction String))
    (line : String) : List (Transaction String) :=
  insertTransaction db ((pf ((splitComma line).getD 1 "")).getD 0)
    ((splitComma line).getD 2 "") ((splitComma line).getD 3 "")
    ((splitComma line).getD 4 "")

/-- The store contents after inserting the rows of a list of well-formed
data lines, in order. -/
def importedRows (pf : String → Option ℚ) (lines : List String)
    (db : List (Transaction String)) : List (Transaction String) :=
  lines.foldl (lineInsert pf) db

theorem importLoop_abort (pf : String → Option ℚ) (bad : String)
    (rest : List String) (hbad : malformedLine pf bad = true) :
    ∀ (good : List String) (lineNum : ℕ) (db : List (Transaction String)),
      (∀ l ∈ good, malformedLine pf l = false) →
      ∃ e : ImportError,
        importLoop pf lineNum (good ++ bad :: rest) db = (importedRows pf good db, some e) := by
  intro good
  induction good with
  | nil =>
    intro lineNum db _
    unfold malformedLine at hbad
    rw [List.nil_append]
    by_cases hlen : (splitComma bad).length < 5
    · exact ⟨.invalidLine (lineNum + 1) bad, by
        simp only [importLoop, importedRows, List.foldl_nil]
        rw [if_pos hlen]⟩
    · have hnone : pf ((splitComma bad).getD 1 "") = none := by
        rcases h : pf ((splitComma bad).getD 1 "") with _ | c
        · rfl
        · rw [h] at hbad
          simp [hlen] at hbad
      exact ⟨.invalidCost (lineNum + 1) ((splitComma bad).getD 1 ""), by
        simp only [importLoop, importedRows, List.foldl_nil]
        rw [if_neg hlen, hnone]⟩
  | cons l good' ih =>
    intro lineNum db hgood
    have hl : malformedLine pf l = false := hgood l (by simp)
    unfold malformedLine at hl
    have hlen : ¬ (splitComma l).length < 5 := by
      intro hc
      simp [hc] at hl
    obtain ⟨c, hc⟩ : ∃ c, pf ((splitComma l).getD 1 "") = some c := by
      rcases h : pf ((splitComma l).getD 1 "") with _ | c
      · rw [h] at hl
        simp [hlen] at hl
      · exact ⟨c, rfl⟩
    rw [List.cons_append]
    obtain ⟨e, he⟩ :=
      ih (lineNum + 1) (lineInsert pf db l) (fun x hx => hgood x (by simp [hx]))
    refine ⟨e, ?_⟩
    simp only [importLoop]
    rw [if_neg hlen, hc]
    have hrow : insertTransaction db c ((splitComma l).getD 2 "")
        ((splitComma l).getD 3 "") ((splitComma l).getD 4 "") = lineInsert pf db l := by
      unfold lineInsert
      rw [hc]
      rfl
    show importLoop pf (lineNum + 1) (good' ++ bad :: rest)
        (insertTransaction db c ((splitComma l).getD 2 "") ((splitComma l).getD 3 "")
          ((splitComma l).getD 4 "")) =
      (importedRows pf (l :: good') db, some e)
    rw [hrow, he]
    unfold importedRows
    rw [List.foldl_cons]

/-- C8: an import aborts with a user-error marker at the first malformed
data line (fewer than 5 comma-separated fields, or an unparseable cost
field), inserts no further rows, and leaves every row inserted from the
earlier lines of the same run in the store: the import is not atomic. -/
theorem c8_import_abort (pf : String → Option ℚ) (header : String)
    (good : List String) (bad : String) (rest : List String)
    (db : List (Transaction String))
    (hgood : ∀ l ∈ good, malformedLine pf l = false)
    (hbad : malformedLine pf bad = true) :
    ∃ e : ImportError,
      dbImport pf (header :: (good ++ bad :: rest)) db =
        (importedRows pf good db, some e) := by
  unfold dbImport
  exact importLoop_abort pf bad rest hbad good 0 db hgood

/-- C8 witness: a header, one well-formed line, then a line with only 3
fields; the import fails but the first line's row is in the store. -/
theorem c8_import_abort_witness :
    (∀ l ∈ ["1,2.5,food,ok,2024-01-01"],
      malformedLine (fun s => if s = "2.5" then some ((5 : ℚ)/2) else none) l = false) ∧
    malformedLine (fun s => if s = "2.5" then some ((5 : ℚ)/2) else none) "1,2,3" = true ∧
    ∃ e : ImportError,
      dbImport (fun s => if s = "2.5" then some ((5 : ℚ)/2) else none)
          ["id,cost,category,comment,date", "1,2.5,food,ok,2024-01-01", "1,2,3"] [] =
        (importedRows (fun s => if s = "2.5" then some ((5 : ℚ)/2) else none)
          ["1,2.5,food,ok,2024-01-01"] [], some e) :=
  ⟨by decide, by decide,
    c8_import_abort (fun s => if s = "2.5" then some ((5 : ℚ)/2) else none)
      "id,cost,category,comment,date" ["1,2.5,food,ok,2024-01-01"] "1,2,3" [] []
      (by decide) (by decide)⟩

/-! ## Category nullification invariant (C9) -/

/-- Store states reachable through the program's insert paths: the freshly
initialized empty table, direct inserts (the positional command and also
the import loop go through `insertTransaction`), and whole imports. -/
inductive Reachable : List (Transaction String) → Prop
  | empty : Reachable []
  | insert (db : List (Transaction String)) (cost : ℚ)
      (category comment date : String) :
      Reachable db → Reachable (insertTransaction db cost category comment date)
  | importCSV (pf : String → Option ℚ) (lines : List String)
      (db : List (Transaction String)) :
      Reachable db → Reachable (dbImport pf lines db).1

theorem insertTransaction_no_empty_category {δ : Type}
    (db : List (Transaction δ)) (cost : ℚ) (category comment : String) (date : δ)
    (hdb : ∀ t ∈ db, t.category ≠ some "") :
    ∀ t ∈ insertTransaction db cost category comment date,
      t.category ≠ some "" := by
  intro t ht
  unfold insertTransaction at ht
  rw [List.mem_append] at ht
  rcases ht with h | h
  · exact hdb t h
  · rw [List.mem_singleton] at h
    subst h
    dsimp only
    split
    · simp
    next hne =>
      intro hcontra
      rw [Option.some_inj] at hcontra
      subst hcontra
      exact hne rfl

theorem importLoop_no_empty_category (pf : String → Option ℚ) :
    ∀ (lines : List String) (lineNum : ℕ) (db : List (Transaction String)),
      (∀ t ∈ db, t.category ≠ some "") →
      ∀ t ∈ (importLoop pf lineNum lines db).1, t.category ≠ some "" := by
  intro lines
  induction lines with
  | nil => intro lineNum db hdb; exact hdb
  | cons line rest ih =>
    intro lineNum db hdb
    simp only [importLoop]
    split
    · exact hdb
    · split
      · exact hdb
      · exact ih (lineNum + 1) _ (insertTransaction_no_empty_category db _ _ _ _ hdb)

theorem reachable_no_empty_category {db : List (Transaction String)}
    (h : Reachable db) : ∀ t ∈ db, t.category ≠ some "" := by
  induction h with
  | empty => intro t ht; cases ht
  | insert db cost category comment date _ ih =>
    exact insertTransaction_no_empty_category db cost category comment date ih
  | importCSV pf lines db _ ih =>
    cases lines with
    | nil => exact ih
    | cons header rest => exact importLoop_no_empty_category pf rest 0 db ih

/-- C9: an insert whose category is empty or consists only of white space
stores the transaction with an absent (NULL) category; consequently no
reachable store state contains a row whose category is the empty string;
and an absent category is rendered as "N/A" in reports. -/
theorem c9_category_null (db : List (Transaction String)) (cost : ℚ)
    (category comment date : String) (hws : goTrimSpace category = "")
    (hreach : Reachable db) :
    insertTransaction db cost category comment date =
      db ++ [{ cost := cost, category := none, comment := comment, date := date }] ∧
    (∀ t ∈ db, t.category ≠ some "") ∧
    renderCategory none = "N/A" := by
  refine ⟨?_, reachable_no_empty_category hreach, rfl⟩
  unfold insertTransaction
  rw [if_pos hws]

/-- C9 witness: a whitespace-only category is stored as NULL, on a store
reached by one earlier insert. -/
theorem c9_category_null_witness :
    goTrimSpace " " = "" ∧
    Reachable (insertTransaction [] 1 "x" "c" "2024-01-01") ∧
    (insertTransaction (insertTransaction [] 1 "x" "c" "2024-01-01") 2 " " "c2" "2024-01-02" =
        insertTransaction [] 1 "x" "c" "2024-01-01" ++
          [{ cost := 2, category := none, comment := "c2", date := "2024-01-02" }] ∧
      (∀ t ∈ insertTransaction [] 1 "x" "c" "2024-01-01", t.category ≠ some "") ∧
      renderCategory none = "N/A") :=
  ⟨by decide, Reachable.insert [] 1 "x" "c" "2024-01-01" Reachable.empty,
    c9_category_null (insertTransaction [] 1 "x" "c" "2024-01-01") 2 " " "c2" "2024-01-02"
      (by decide) (Reachable.insert [] 1 "x" "c" "2024-01-01" Reachable.empty)⟩

/-! ## The positional dispatch in `main` (C10) -/

/-- The flag set (`flags` in the source). -/
structure flags where
  comment : String
  date : String
  stats : String
  exportCSV : String
  importCSV : String
  yeet : Bool
deriving DecidableEq

/-- The positional arguments (`arguments` in the source). -/
structure arguments where
  cost : ℚ
  category : String
deriving DecidableEq

/-- The positional-argument handling in `parse`, parametrized by
`strconv.ParseFloat` (standard-library code): with no positional argument
the cost keeps its zero value; a first argument that fails to parse exits
through `Usage` (modelled as `none`); a second positional argument is the
category. -/
def parseArguments (pf : String → Option ℚ) (args : List String) :
    Option arguments :=
  match args with
  | [] => some { cost := 0, category := "" }
  | a0 :: rest =>
    match pf a0 with
    | none => none
    | some c =>
      some { cost := c,
             category := match rest with | [] => "" | a1 :: _ => a1 }

/-- The action selected by the `switch` in `main`. -/
inductive MainAction where
  | insertTx (cost : ℚ) (category comment date : String)
  | statsA (w : String)
  | exportA (path : String)
  | importA (path : String)
  | yeetA
  | helpHint
deriving DecidableEq

/-- The `switch` in `main`, in source order: insert when the parsed cost is
nonzero, else stats, else export, else import, else the wipe flow, else the
help hint. -/
def mainDispatch (a : arguments) (f : flags) : MainAction :=
  if a.cost ≠ 0 then .insertTx a.cost a.category f.comment f.date
  else if f.stats ≠ "" then .statsA f.stats
  else if f.exportCSV ≠ "" then .exportA f.exportCSV
  else if f.importCSV ≠ "" then .importA f.importCSV
  else if f.yeet then .yeetA
  else .helpHint

/-- Whether a selected action is the transaction insert. -/
def isInsert : MainAction → Bool
  | .insertTx _ _ _ _ => true
  | _ => false

/-- C10: whenever the positional arguments parse successfully, the insert
branch of the dispatcher is taken exactly when the parsed cost is nonzero —
in particular a cost argument that parses to exactly 0 never records a
transaction. -/
theorem c10_zero_cost_no_insert (pf : String → Option ℚ) (args : List String)
    (a : arguments) (f : flags) (h : parseArguments pf args = some a) :
    isInsert (mainDispatch a f) = true ↔ a.cost ≠ 0 := by
  by_cases hc : a.cost = 0
  · have hfalse : isInsert (mainDispatch a f) = false := by
      unfold mainDispatch
      rw [if_neg (by simp [hc])]
      repeat' split
      all_goals rfl
    simp [hfalse, hc]
  · have htrue : isInsert (mainDispatch a f) = true := by
      unfold mainDispatch
      rw [if_pos hc]
      rfl
    simp [htrue, hc]


/-- C10 witness: the explicit argument "0" parses to cost 0 and the insert
branch is not taken. -/
theorem c10_zero_cost_no_insert_witness :
    parseArguments (fun s => if s = "0" then some 0 else none) ["0"] =
      some { cost := 0, category := "" } ∧
    (isInsert (mainDispatch { cost := 0, category := "" }
        { comment := "", date := "", stats := "", exportCSV := "", importCSV := "",
          yeet := false }) = true ↔ (0 : ℚ) ≠ 0) :=
  ⟨by decide,
    c10_zero_cost_no_insert (fun s => if s = "0" then some 0 else none) ["0"]
      { cost := 0, category := "" }
      { comment := "", date := "", stats := "", exportCSV := "", importCSV := "",
        yeet := false } (by decide)⟩

end Liet
